import Mathlib

/-!
Shallow embedding of the fixed-point quantization primitives and the
bit-field container of `common.py` (desp_tools), together with proofs
checking the specification of this core against the code.

Conventions of the embedding:
* Python integers are unbounded, so they are modelled by `Int` (and by
  `Nat` where the code only ever holds nonnegative values, such as the
  `data` member of `CommonBits`).
* Python `//` on ints is floor division, modelled by `Int.fdiv`; Python
  `%` with a positive divisor is the nonnegative remainder, modelled by
  `Int.emod` (written `%` on `Int` in Lean, which is the same function).
* Python bitwise `&` and on unbounded ints acts on the infinite
  two's-complement representation.  The code only uses it in the shapes
  `a & (2^k - 1)` (keep the low `k` bits, i.e. `a mod 2^k`),
  `a & 2^k` (test bit `k`) and `a & ~m` with `a, m ≥ 0` (clear in `a`
  the bits set in `m`).  These shapes are modelled by the helper
  functions `pyMaskLow`, `pyTestBit` and `pyAndNot` below.
* Functions that report errors with `print(...)` and then fall through
  return a pair of the value and the list of printed error messages.
  A call that would raise in Python (crash) is modelled with `Option`,
  `none` standing for the raised exception.
-/

/-- Python `a & (2^k - 1)` on an unbounded two's-complement int:
keep the low `k` bits, which is exactly `a mod 2^k` (nonnegative). -/
def pyMaskLow (a : Int) (k : Nat) : Int :=
  a % 2 ^ k

/-- Python `(a & 2^k) != 0` on an unbounded two's-complement int:
test bit `k` of `a`, i.e. whether `a mod 2^(k+1)` reaches `2^k`. -/
def pyTestBit (a : Int) (k : Nat) : Bool :=
  decide (2 ^ k ≤ a % 2 ^ (k + 1))

/-- Python `a & ~m` for nonnegative unbounded ints `a`, `m`: clear in `a`
every bit set in `m`.  Because the bits of `a &&& m` are a subset of the
bits of `a`, this equals `a ^^^ (a &&& m)`. -/
def pyAndNot (a m : Nat) : Nat :=
  a ^^^ (a &&& m)

/-- Embedding of `int_clip(inp, w, symmetric)` from common.py:
clip an integer value to `w` bits.  For `w <= 0` the code returns the
initial `outp = 0`. -/
def int_clip (inp w : Int) (symmetric : Bool) : Int :=
  if w > 0 then
    let clip_p : Int := 2 ^ (w.toNat - 1) - 1
    let clip_n : Int := if symmetric then -(2 ^ (w.toNat - 1)) + 1 else -(2 ^ (w.toNat - 1))
    if inp > clip_p then clip_p
    else if inp < clip_n then clip_n
    else inp
  else 0

/-- Embedding of `int_wrap(inp, w)` from common.py: wrap an integer value
to `w` bits.  The code masks the low `w-1` bits (`inp & wrap_mask`) and
subtracts `wrap_sign = 2^(w-1)` when the sign bit is set in `inp`
(`inp & wrap_sign`); for `w <= 0` it returns the initial `outp = 0`. -/
def int_wrap (inp w : Int) : Int :=
  if w > 0 then
    let wrap_sign : Int := 2 ^ (w.toNat - 1)
    if pyTestBit inp (w.toNat - 1) = false then pyMaskLow inp (w.toNat - 1)
    else pyMaskLow inp (w.toNat - 1) - wrap_sign
  else 0

/-- Embedding of `int_round(inp, r, direction, clip, outp_w)` from
common.py, returning the result value together with the list of error
messages printed during the call.  An unsupported direction string is
reported with `print` and leaves `outp = inp`.  The `clip` branch is
modelled for `outp_w >= 1`; for `outp_w <= 0` with `clip = True` the
Python code computes `2**(outp_w-1)` as a float and leaves the integer
domain, which no covered call exercises. -/
def int_roundE (inp r : Int) (direction : String) (clip : Bool) (outp_w : Int) :
    Int × List String :=
  if r > 0 then
    let round_factor : Int := 2 ^ r.toNat
    let round_p : Int := 2 ^ (r - 1).toNat
    let round_n : Int := 2 ^ (r - 1).toNat - 1
    let res : Int × List String :=
      if direction = "HALF_UP" then ((inp + round_p).fdiv round_factor, [])
      else if direction = "HALF_AWAY" then
        if 0 ≤ inp then ((inp + round_p).fdiv round_factor, [])
        else ((inp + round_n).fdiv round_factor, [])
      else if direction = "HALF_EVEN" then
        let outp := (inp + round_p).fdiv round_factor
        if inp % round_factor = round_p ∧ outp % 2 = 1 then (outp - 1, [])
        else (outp, [])
      else (inp, ["int_round: Error: unsupported round direction"])
    if clip then
      let clip_max : Int := 2 ^ (outp_w.toNat - 1) - 1
      if res.1 > clip_max then (clip_max, res.2) else res
    else res
  else (inp, [])

/-- Value returned by `int_round` (the Python function returns `outp`;
error reporting happens separately through `print`). -/
def int_round (inp r : Int) (direction : String) (clip : Bool) (outp_w : Int) : Int :=
  (int_roundE inp r direction clip outp_w).1

/-- Embedding of `int_truncate(inp, r, direction)` from common.py.
Python `>> r` on an unbounded int is an arithmetic shift, i.e. floor
division by `2^r`, modelled by `Int.fdiv`. -/
def int_truncate (inp r : Int) (direction : String) : Int :=
  if r > 0 then
    if direction = "SYMMETRIC" then
      if 0 ≤ inp then inp.fdiv (2 ^ r.toNat)
      else -((-inp).fdiv (2 ^ r.toNat))
    else inp.fdiv (2 ^ r.toNat)
  else inp

/-- Embedding of `int_requantize(inp, inp_w, outp_w, lsb_w, lsb_round,
msb_clip, gain_w)` from common.py: wrap to the input width, then round or
truncate the LSbits (with the default direction `"HALF_AWAY"` resp. `""`
and default `clip=False`), then clip or wrap the MSbits, then apply the
output gain `r << gain_w` (modelled as multiplication by `2^gain_w`;
a negative `gain_w` raises in Python and is not exercised here) and wrap
to the output width. -/
def int_requantize (inp inp_w outp_w lsb_w : Int) (lsb_round msb_clip : Bool)
    (gain_w : Int) : Int :=
  let r1 := int_wrap inp inp_w
  let r2 := if lsb_round then int_round r1 lsb_w "HALF_AWAY" false 0
            else int_truncate r1 lsb_w ""
  let r3 := if msb_clip then int_clip r2 outp_w false else int_wrap r2 outp_w
  let r4 := r3 * 2 ^ gain_w.toNat
  int_wrap r4 outp_w

/-- Embedding of the scalar path of `to_signed(arg, width)` from
common.py: mask the low `width` bits (`value & c_mask` with
`c_mask = 2^width - 1`) and subtract `c_wrap = 2^width` when the sign bit
`c_sign = 2^(width-1)` is set in the masked value. -/
def to_signed (value w : Int) : Int :=
  let c_wrap : Int := 2 ^ w.toNat
  let v : Int := pyMaskLow value w.toNat
  if pyTestBit v (w.toNat - 1) then v - c_wrap else v

/-- Structurally recursive helper computing the binary length of `n`
(0 for `n = 0`), with explicit fuel so that the kernel can evaluate it. -/
def bitLenAux : Nat → Nat → Nat
  | 0, _ => 0
  | fuel + 1, n => if n = 0 then 0 else bitLenAux fuel (n / 2) + 1

/-- Embedding of `CommonBits.get_bin_len(value)` from common.py for a
nonnegative value: `len(bin(value)[2:])`, which is 1 for value 0 and the
binary length otherwise. -/
def get_bin_len (value : Nat) : Nat :=
  if value = 0 then 1 else bitLenAux value value

/-- Embedding of `CommonBits.get_bin_len(value)` for an arbitrary int
value: for `v < 0` Python formats `bin(v)` as `-0b...`, so the `[2:]`
slice keeps a spurious `b` character plus the digits of `|v|`, giving
length `get_bin_len |v| + 1`. -/
def get_bin_len_int (value : Int) : Nat :=
  if 0 ≤ value then get_bin_len value.toNat else get_bin_len (-value).toNat + 1

/-- The state of a `CommonBits` object from common.py: the stored
nonnegative integer `data` and the declared bit width `data_bin_len`
(called `width` here). -/
structure CommonBits where
  data : Nat
  width : Nat
deriving DecidableEq

/-- Embedding of `CommonBits.bitmask(nof_bits)`: `pow(2, nof_bits) - 1`. -/
def CommonBits.bitmask (nof_bits : Nat) : Nat :=
  2 ^ nof_bits - 1

/-- Embedding of `CommonBits.__init__(data, bits)` on the nonnegative
data path, returning the constructed object and the printed error
messages.  With `bits > 0` the width is set to `bits`; if the data does
not fit, an error is printed but the object is still constructed with the
unmodified data.  Otherwise the minimum binary length of the data is
used. -/
def commonBitsInit (data : Nat) (bits : Int) : CommonBits × List String :=
  if bits > 0 then
    ({ data := data, width := bits.toNat },
      if (get_bin_len data : Int) > bits then
        ["CommonBits: Error: input data does not fit in passed number of bits"]
      else [])
  else
    ({ data := data, width := get_bin_len data }, [])

/-- Embedding of `CommonBits.check_slice` for a `[high:low]` slice with
no step: one error for a range not written most-significant-first, one
error for a most-significant index beyond the width. -/
def CommonBits.checkSliceRange (c : CommonBits) (high low : Nat) : Nat :=
  (if high < low then 1 else 0) + (if c.width ≤ high then 1 else 0)

/-- Embedding of `CommonBits.check_slice` for a single bit index. -/
def CommonBits.checkSliceIndex (c : CommonBits) (idx : Nat) : Nat :=
  if c.width ≤ idx then 1 else 0

/-- Embedding of `CommonBits.__getitem__` for a `[high:low]` slice:
`(data >> low) & bitmask(high - low + 1)`.  On an invalid slice the
Python method prints an error and implicitly returns `None`, modelled by
`none`. -/
def CommonBits.getSlice (c : CommonBits) (high low : Nat) : Option Nat :=
  if c.checkSliceRange high low = 0 then
    some ((c.data >>> low) &&& CommonBits.bitmask (high - low + 1))
  else none

/-- Embedding of `CommonBits.__getitem__` for a single bit index:
`(data >> idx) & bitmask(1)`; `none` on an out-of-range index. -/
def CommonBits.getBit (c : CommonBits) (idx : Nat) : Option Nat :=
  if c.checkSliceIndex idx = 0 then
    some ((c.data >>> idx) &&& CommonBits.bitmask 1)
  else none

/-- Embedding of `CommonBits.__setitem__` for a `[high:low]` slice,
returning the updated object and the printed messages.  A value below
`-1` makes the Python method print an error and then crash on an unbound
local variable, modelled by `none`; value `-1` sets the whole range to
ones (the bitmask is used as the data); a nonnegative value is used as
is.  When the data fits the bitmask, the new data is
`(data & ~(bitmask << low)) | (value << low)`; otherwise an error is
printed and the object is unchanged. -/
def CommonBits.setSlice (c : CommonBits) (high low : Nat) (value : Int) :
    Option (CommonBits × List String) :=
  if c.checkSliceRange high low = 0 then
    let bm := CommonBits.bitmask (high - low + 1)
    if value < -1 then none
    else
      let d : Nat := if value = -1 then bm else value.toNat
      if get_bin_len d ≤ get_bin_len bm then
        some ({ data := pyAndNot c.data (bm <<< low) ||| (d <<< low), width := c.width }, [])
      else some (c, ["CommonBits: Error: passed value does not fit in bits"])
  else some (c, ["CommonBits: Error: invalid slice range"])

/-- Embedding of `CommonBits.__setitem__` for a single bit index.  The
data must have binary length at most 1 (so the accepted values are
exactly 0 and 1; negative values have Python `bin` length at least 2 and
are rejected with a printed error). -/
def CommonBits.setBit (c : CommonBits) (idx : Nat) (value : Int) :
    CommonBits × List String :=
  if c.checkSliceIndex idx = 0 then
    if get_bin_len_int value ≤ get_bin_len (CommonBits.bitmask 1) then
      ({ data := pyAndNot c.data (CommonBits.bitmask 1 <<< idx) ||| (value.toNat <<< idx),
         width := c.width }, [])
    else (c, ["CommonBits: Error: passed value does not fit in bit"])
  else (c, ["CommonBits: Error: invalid slice range"])

/-- Embedding of `CommonBits.__and__(self, other)`: create a fresh
object of the combined width, write the MS part `[ms_hi:ms_lo]` with the
data of `self` and the LS part `[ls_hi:0]` with the data of `other`.
The widths are positive for every constructable object (see the data
model), which keeps the Nat subtractions below exact. -/
def concatBits (a b : CommonBits) : Option CommonBits :=
  match (commonBitsInit 0 ((a.width : Int) + (b.width : Int))).1.setSlice
      (a.width + b.width - 1) b.width (a.data : Int) with
  | none => none
  | some (r1, _) =>
    match r1.setSlice (b.width - 1) 0 (b.data : Int) with
    | none => none
    | some (r2, _) => some r2

/-- Embedding of `CommonBits.hi(self)`: build a fresh `CommonBits` from
the stored data with the default (minimum) width, then collect, in
increasing order over `range(0, data_bin_len)`, the bit indices whose
read via `__getitem__` compares equal to 1.  An out-of-range read yields
`None`, which compares unequal. -/
def CommonBits.hi (c : CommonBits) : List Nat :=
  let data_bits := (commonBitsInit c.data 0).1
  (List.range c.width).filter (fun bit => decide (data_bits.getBit bit = some 1))

/-- Embedding of `CommonBits.lo(self)`: same loop as `hi`, collecting the
bit indices whose read via `__getitem__` compares equal to 0. -/
def CommonBits.lo (c : CommonBits) : List Nat :=
  let data_bits := (commonBitsInit c.data 0).1
  (List.range c.width).filter (fun bit => decide (data_bits.getBit bit = some 0))

/-! ### Helper lemmas on the arithmetic primitives -/

theorem pyMaskLow_nonneg (a : Int) (k : Nat) : 0 ≤ pyMaskLow a k :=
  Int.emod_nonneg a (by positivity : (0:Int) < 2 ^ k).ne'

theorem pyMaskLow_lt (a : Int) (k : Nat) : pyMaskLow a k < 2 ^ k :=
  Int.emod_lt_of_pos a (by positivity)

theorem emod_two_pow_succ (a : Int) (k : Nat) :
    a % 2 ^ k = if a % 2 ^ (k + 1) < 2 ^ k then a % 2 ^ (k + 1)
      else a % 2 ^ (k + 1) - 2 ^ k := by
  have hdvd : ((2:Int) ^ k) ∣ 2 ^ (k + 1) := pow_dvd_pow 2 (Nat.le_succ k)
  have h0 : a % 2 ^ k = a % 2 ^ (k + 1) % 2 ^ k := (Int.emod_emod_of_dvd a hdvd).symm
  have hb1 : 0 ≤ a % 2 ^ (k + 1) := Int.emod_nonneg a (by positivity : (0:Int) < 2 ^ (k + 1)).ne'
  have hb2 : a % 2 ^ (k + 1) < 2 ^ (k + 1) := Int.emod_lt_of_pos a (by positivity)
  have hpow : (2:Int) ^ (k + 1) = 2 ^ k + 2 ^ k := by ring
  by_cases hM : a % 2 ^ (k + 1) < 2 ^ k
  · rw [if_pos hM, h0, Int.emod_eq_of_lt hb1 hM]
  · rw [if_neg hM, h0]
    have hshift : a % 2 ^ (k + 1) % 2 ^ k = (a % 2 ^ (k + 1) - 2 ^ k) % 2 ^ k := by
      have h3 := Int.add_mul_emod_self_left (a % 2 ^ (k + 1)) (2 ^ k) (-1)
      have h4 : a % 2 ^ (k + 1) + 2 ^ k * (-1) = a % 2 ^ (k + 1) - 2 ^ k := by ring
      rw [h4] at h3
      exact h3.symm
    rw [hshift, Int.emod_eq_of_lt (by omega) (by omega)]

theorem int_wrap_eq (v w : Int) (k : Nat) (hw : 0 < w) (hk : w.toNat = k + 1) :
    int_wrap v w = if v % 2 ^ (k + 1) < 2 ^ k then v % 2 ^ (k + 1)
      else v % 2 ^ (k + 1) - 2 ^ (k + 1) := by
  unfold int_wrap pyTestBit pyMaskLow
  rw [if_pos hw, hk]
  simp only [Nat.add_sub_cancel]
  have hpow : (2:Int) ^ (k + 1) = 2 ^ k + 2 ^ k := by ring
  by_cases hM : v % 2 ^ (k + 1) < 2 ^ k
  · rw [if_pos (by simp only [decide_eq_false_iff_not, not_le]; omega),
      emod_two_pow_succ v k, if_pos hM, if_pos hM]
  · rw [if_neg (by simp only [decide_eq_false_iff_not, not_le]; omega),
      emod_two_pow_succ v k, if_neg hM, if_neg hM]
    omega

theorem int_wrap_bounds (v w : Int) (k : Nat) (hw : 0 < w) (hk : w.toNat = k + 1) :
    -(2 ^ k) ≤ int_wrap v w ∧ int_wrap v w < 2 ^ k := by
  rw [int_wrap_eq v w k hw hk]
  have h1 : 0 ≤ v % 2 ^ (k + 1) := Int.emod_nonneg v (by positivity : (0:Int) < 2 ^ (k + 1)).ne'
  have h2 : v % 2 ^ (k + 1) < 2 ^ (k + 1) := Int.emod_lt_of_pos v (by positivity)
  have hpow : (2:Int) ^ (k + 1) = 2 ^ k + 2 ^ k := by ring
  have hp : (0:Int) < 2 ^ k := by positivity
  split_ifs <;> omega

theorem int_wrap_id (v w : Int) (k : Nat) (hw : 0 < w) (hk : w.toNat = k + 1)
    (h1 : -(2 ^ k) ≤ v) (h2 : v < 2 ^ k) : int_wrap v w = v := by
  rw [int_wrap_eq v w k hw hk]
  have hpow : (2:Int) ^ (k + 1) = 2 ^ k + 2 ^ k := by ring
  have hp : (0:Int) < 2 ^ k := by positivity
  by_cases hv : 0 ≤ v
  · rw [Int.emod_eq_of_lt hv (by omega), if_pos h2]
  · have h3 := Int.add_mul_emod_self_left v (2 ^ (k + 1)) 1
    rw [mul_one] at h3
    have heq : v % 2 ^ (k + 1) = v + 2 ^ (k + 1) := by
      rw [← h3]
      exact Int.emod_eq_of_lt (by omega) (by omega)
    rw [heq, if_neg (by omega)]
    omega

theorem int_clip_id (x w : Int) (k : Nat) (hw : 0 < w) (hk : w.toNat = k + 1)
    (h1 : -(2 ^ k) ≤ x) (h2 : x ≤ 2 ^ k - 1) : int_clip x w false = x := by
  unfold int_clip
  rw [if_pos hw, hk]
  simp only [Nat.add_sub_cancel, Bool.false_eq_true, if_false]
  have hp : (0:Int) < 2 ^ k := by positivity
  split_ifs <;> omega

/-- C10: for every integer `v` and width `w > 0`, `int_wrap v w` equals
`to_signed v w` (the mod-`2^w` two's-complement reduction), and `int_wrap`
is the identity on the representable range `[-2^(w-1), 2^(w-1) - 1]`. -/
theorem int_wrap_refines_to_signed (v w : Int) (hw : 0 < w) :
    int_wrap v w = to_signed v w
    ∧ (-(2 ^ (w.toNat - 1)) ≤ v → v ≤ 2 ^ (w.toNat - 1) - 1 → int_wrap v w = v) := by
  obtain ⟨k, hk⟩ : ∃ k, w.toNat = k + 1 := ⟨w.toNat - 1, by omega⟩
  have hk1 : w.toNat - 1 = k := by omega
  constructor
  · rw [int_wrap_eq v w k hw hk]
    unfold to_signed pyTestBit pyMaskLow
    rw [hk]
    simp only [Nat.add_sub_cancel]
    have h1 : 0 ≤ v % 2 ^ (k + 1) :=
      Int.emod_nonneg v (by positivity : (0:Int) < 2 ^ (k + 1)).ne'
    have h2 : v % 2 ^ (k + 1) < 2 ^ (k + 1) := Int.emod_lt_of_pos v (by positivity)
    rw [Int.emod_eq_of_lt h1 h2]
    by_cases hc : v % 2 ^ (k + 1) < 2 ^ k
    · rw [if_pos hc, if_neg (by simp only [decide_eq_true_eq]; omega)]
    · rw [if_neg hc, if_pos (by simp only [decide_eq_true_eq]; omega)]
  · intro hl hh
    rw [hk1] at hl hh
    have hp : (0:Int) < 2 ^ k := by positivity
    exact int_wrap_id v w k hw hk hl (by omega)

/-- Witness for C10 at `v = -3`, `w = 3`. -/
theorem int_wrap_refines_to_signed_witness :
    int_wrap (-3) 3 = to_signed (-3) 3 ∧ int_wrap (-3) 3 = -3 :=
  ⟨(int_wrap_refines_to_signed (-3) 3 (by decide)).1,
   (int_wrap_refines_to_signed (-3) 3 (by decide)).2 (by decide) (by decide)⟩

/-- C7: `int_clip` returns the value unchanged inside `[low, high]`,
saturates to `high = 2^(w-1) - 1` above and to `low` below, where `low`
is `-2^(w-1)` (or `-2^(w-1) + 1` in symmetric mode), and returns 0 for
any width `w ≤ 0`. -/
theorem int_clip_spec (v w : Int) (s : Bool) :
    (0 < w →
      ((if s then -(2 ^ (w.toNat - 1)) + 1 else -(2 ^ (w.toNat - 1)) : Int) ≤ v →
          v ≤ 2 ^ (w.toNat - 1) - 1 → int_clip v w s = v)
      ∧ (2 ^ (w.toNat - 1) - 1 < v → int_clip v w s = 2 ^ (w.toNat - 1) - 1)
      ∧ (v < (if s then -(2 ^ (w.toNat - 1)) + 1 else -(2 ^ (w.toNat - 1)) : Int) →
          int_clip v w s = if s then -(2 ^ (w.toNat - 1)) + 1 else -(2 ^ (w.toNat - 1))))
    ∧ (w ≤ 0 → int_clip v w s = 0) := by
  have hp : (0:Int) < 2 ^ (w.toNat - 1) := by positivity
  constructor
  · intro hw
    unfold int_clip
    rw [if_pos hw]
    refine ⟨fun hl hh => ?_, fun hh => ?_, fun hl => ?_⟩ <;>
      cases s <;> simp only [Bool.false_eq_true, if_false, if_true] at * <;>
        split_ifs <;> omega
  · intro hw
    unfold int_clip
    rw [if_neg (by omega)]

/-- Witness for C7 at width 4: identity inside the range, saturation
above and below. -/
theorem int_clip_spec_witness :
    int_clip 5 4 false = 5 ∧ int_clip 100 4 false = 7 ∧ int_clip (-100) 4 false = -8 :=
  ⟨((int_clip_spec 5 4 false).1 (by decide)).1 (by decide) (by decide),
   ((int_clip_spec 100 4 false).1 (by decide)).2.1 (by decide),
   ((int_clip_spec (-100) 4 false).1 (by decide)).2.2 (by decide)⟩

/-- C1 counterexample: at `v = 2`, `w = 2` the requantize pipeline wraps
the out-of-range input to `-2`, while a plain clip saturates it to `1`,
so `requantize(v, w, w, 0, false, true, 0) == clip(v, w)` fails for
values outside the representable range of `w` bits. -/
theorem requantize_ne_clip_counterexample :
    int_requantize 2 2 2 0 false true 0 ≠ int_clip 2 2 false := by decide

/-- C1 (amended): with equal input and output widths, no LSB removal,
clip on the MSBs and zero gain, the requantize pipeline reduces to
`int_wrap v w` (the input stage wraps first, so the later clip never
acts); on the representable range `[-2^(w-1), 2^(w-1)-1]` this coincides
with `int_clip v w`, both being the identity there. -/
theorem requantize_noop_reduces (v w : Int) (hw : 0 < w) :
    int_requantize v w w 0 false true 0 = int_wrap v w
    ∧ (-(2 ^ (w.toNat - 1)) ≤ v → v ≤ 2 ^ (w.toNat - 1) - 1 →
        int_requantize v w w 0 false true 0 = int_clip v w false) := by
  obtain ⟨k, hk⟩ : ∃ k, w.toNat = k + 1 := ⟨w.toNat - 1, by omega⟩
  have hk1 : w.toNat - 1 = k := by omega
  obtain ⟨hb1, hb2⟩ := int_wrap_bounds v w k hw hk
  have hdef : int_requantize v w w 0 false true 0
      = int_wrap (int_clip (int_truncate (int_wrap v w) 0 "") w false * 2 ^ (0:Int).toNat) w :=
    rfl
  have ht : int_truncate (int_wrap v w) 0 "" = int_wrap v w := rfl
  have hmain : int_requantize v w w 0 false true 0 = int_wrap v w := by
    rw [hdef, ht, int_clip_id (int_wrap v w) w k hw hk hb1 (by omega)]
    norm_num
    exact int_wrap_id (int_wrap v w) w k hw hk hb1 hb2
  refine ⟨hmain, fun hl hh => ?_⟩
  rw [hk1] at hl hh
  rw [hmain, int_wrap_id v w k hw hk hl (by omega), int_clip_id v w k hw hk hl hh]

/-- Witness for C1 (amended) at `v = 1`, `w = 3`. -/
theorem requantize_noop_reduces_witness :
    int_requantize 1 3 3 0 false true 0 = int_wrap 1 3
    ∧ int_requantize 1 3 3 0 false true 0 = int_clip 1 3 false :=
  ⟨(requantize_noop_reduces 1 3 (by decide)).1,
   (requantize_noop_reduces 1 3 (by decide)).2 (by decide) (by decide)⟩

theorem int_roundE_pos (inp r : Int) (direction : String) (hr : 0 < r) :
    int_roundE inp r direction false 0 =
      if direction = "HALF_UP" then ((inp + 2 ^ (r - 1).toNat).fdiv (2 ^ r.toNat), [])
      else if direction = "HALF_AWAY" then
        if 0 ≤ inp then ((inp + 2 ^ (r - 1).toNat).fdiv (2 ^ r.toNat), [])
        else ((inp + (2 ^ (r - 1).toNat - 1)).fdiv (2 ^ r.toNat), [])
      else if direction = "HALF_EVEN" then
        if inp % 2 ^ r.toNat = 2 ^ (r - 1).toNat
            ∧ (inp + 2 ^ (r - 1).toNat).fdiv (2 ^ r.toNat) % 2 = 1 then
          ((inp + 2 ^ (r - 1).toNat).fdiv (2 ^ r.toNat) - 1, [])
        else ((inp + 2 ^ (r - 1).toNat).fdiv (2 ^ r.toNat), [])
      else (inp, ["int_round: Error: unsupported round direction"]) := by
  unfold int_roundE
  rw [if_pos hr]
  rfl

/-- C2: the value computed by `int_round` for each supported direction
matches the specified formulas (`HALF_UP` is floor after adding the half,
`HALF_AWAY` subtracts one more before flooring for negative values,
`HALF_EVEN` decrements an odd `HALF_UP` result on exact ties), the value
passes through unchanged for `r <= 0`, and the six concrete tie examples
of the specification hold. -/
theorem int_round_direction_spec (v r : Int) :
    (0 < r →
      int_round v r "HALF_UP" false 0 = (v + 2 ^ (r - 1).toNat).fdiv (2 ^ r.toNat)
      ∧ int_round v r "HALF_AWAY" false 0 =
          (if 0 ≤ v then (v + 2 ^ (r - 1).toNat).fdiv (2 ^ r.toNat)
           else (v + 2 ^ (r - 1).toNat - 1).fdiv (2 ^ r.toNat))
      ∧ int_round v r "HALF_EVEN" false 0 =
          (if v % 2 ^ r.toNat = 2 ^ (r - 1).toNat
              ∧ (v + 2 ^ (r - 1).toNat).fdiv (2 ^ r.toNat) % 2 = 1
           then (v + 2 ^ (r - 1).toNat).fdiv (2 ^ r.toNat) - 1
           else (v + 2 ^ (r - 1).toNat).fdiv (2 ^ r.toNat)))
    ∧ (∀ direction : String, r ≤ 0 → int_round v r direction false 0 = v)
    ∧ int_round 1 1 "HALF_UP" false 0 = 1
    ∧ int_round (-1) 1 "HALF_UP" false 0 = 0
    ∧ int_round (-1) 1 "HALF_AWAY" false 0 = -1
    ∧ int_round 1 1 "HALF_EVEN" false 0 = 0
    ∧ int_round 3 1 "HALF_EVEN" false 0 = 2
    ∧ int_round (-3) 1 "HALF_EVEN" false 0 = -2 := by
  refine ⟨fun hr => ⟨?_, ?_, ?_⟩, fun direction hr => ?_,
    by decide, by decide, by decide, by decide, by decide, by decide⟩
  · rw [int_round, int_roundE_pos v r "HALF_UP" hr, if_pos rfl]
  · rw [int_round, int_roundE_pos v r "HALF_AWAY" hr, if_neg (by decide), if_pos rfl]
    split_ifs with h
    · rfl
    · show (v + (2 ^ (r - 1).toNat - 1)).fdiv (2 ^ r.toNat) = _
      congr 1
      ring
  · rw [int_round, int_roundE_pos v r "HALF_EVEN" hr, if_neg (by decide), if_neg (by decide),
      if_pos rfl]
    split_ifs <;> rfl
  · rw [int_round, int_roundE]
    rw [if_neg (by omega)]

/-- Witness for C2 at `v = 1`, `r = 1` (and `r = -1` for the pass-through
conjunct). -/
theorem int_round_direction_spec_witness :
    int_round 1 1 "HALF_UP" false 0 = ((1:Int) + 2 ^ ((1:Int) - 1).toNat).fdiv (2 ^ (1:Int).toNat)
    ∧ int_round 1 (-1) "HALF_UP" false 0 = 1 :=
  ⟨((int_round_direction_spec 1 1).1 (by decide)).1,
   (int_round_direction_spec 1 (-1)).2.1 "HALF_UP" (by decide)⟩

/-- C6 counterexample: calling `int_round` with the unsupported direction
token `"HALF_DOWN"` does not reject the call with a typed failure; the
call completes normally, returning the input value 5 unchanged and merely
printing an error message. -/
theorem int_round_bad_direction_counterexample :
    int_roundE 5 1 "HALF_DOWN" false 0
      = (5, ["int_round: Error: unsupported round direction"]) := by decide

/-- C6 (amended): for every direction token outside
`{HALF_UP, HALF_AWAY, HALF_EVEN}` and every `r > 0`, `int_round` prints
the error message `int_round: Error: unsupported round direction` and
returns the input value unchanged; no exception or typed error reaches
the caller. -/
theorem int_round_bad_direction (inp r : Int) (direction : String) (hr : 0 < r)
    (h1 : direction ≠ "HALF_UP") (h2 : direction ≠ "HALF_AWAY")
    (h3 : direction ≠ "HALF_EVEN") :
    int_roundE inp r direction false 0
      = (inp, ["int_round: Error: unsupported round direction"]) := by
  rw [int_roundE_pos inp r direction hr, if_neg h1, if_neg h2, if_neg h3]

/-- Witness for C6 (amended) at `inp = 7`, `r = 2`, direction `"FLOOR"`. -/
theorem int_round_bad_direction_witness :
    int_roundE 7 2 "FLOOR" false 0
      = (7, ["int_round: Error: unsupported round direction"]) :=
  int_round_bad_direction 7 2 "FLOOR" (by decide) (by decide) (by decide) (by decide)

/-! ### Helper lemmas on the bit-field container -/

theorem bitLenAux_eq (fuel n : Nat) (h : n ≤ fuel) :
    bitLenAux fuel n = if n = 0 then 0 else Nat.log2 n + 1 := by
  induction fuel generalizing n with
  | zero =>
    simp only [Nat.le_zero] at h
    subst h
    simp [bitLenAux]
  | succ f ih =>
    unfold bitLenAux
    rcases Nat.eq_zero_or_pos n with h0 | h0
    · simp [h0]
    · have hne : n ≠ 0 := by omega
      simp only [hne, if_false]
      rw [ih (n / 2) (by omega)]
      rcases Nat.lt_or_ge n 2 with h2 | h2
      · have h1 : n = 1 := by omega
        subst h1
        simp [Nat.log2]
      · have hd : n / 2 ≠ 0 := by
          have h3 : 2 / 2 ≤ n / 2 := Nat.div_le_div_right h2
          omega
        simp only [hd, if_false]
        conv_rhs => rw [Nat.log2]
        simp [h2]

theorem get_bin_len_eq (v : Nat) :
    get_bin_len v = if v = 0 then 1 else Nat.log2 v + 1 := by
  unfold get_bin_len
  by_cases h : v = 0
  · simp [h]
  · rw [if_neg h, if_neg h, bitLenAux_eq v v le_rfl, if_neg h]

theorem get_bin_len_pos (v : Nat) : 0 < get_bin_len v := by
  rw [get_bin_len_eq]
  split_ifs <;> omega

theorem get_bin_len_le_iff (v n : Nat) (hn : 0 < n) :
    get_bin_len v ≤ n ↔ v < 2 ^ n := by
  rw [get_bin_len_eq]
  by_cases h : v = 0
  · subst h
    rw [if_pos rfl]
    constructor
    · intro _
      positivity
    · intro _
      omega
  · rw [if_neg h]
    constructor
    · intro hle
      exact (Nat.log2_lt h).mp (by omega)
    · intro hlt
      have := (Nat.log2_lt h).mpr hlt
      omega

theorem lt_two_pow_get_bin_len (v : Nat) : v < 2 ^ get_bin_len v := by
  rw [get_bin_len_eq]
  by_cases h : v = 0
  · subst h
    simp
  · rw [if_neg h]
    exact (Nat.log2_lt h).mp (Nat.lt_succ_self _)

theorem get_bin_len_bitmask (k : Nat) (hk : 0 < k) :
    get_bin_len (CommonBits.bitmask k) = k := by
  unfold CommonBits.bitmask
  rw [get_bin_len_eq]
  have h2 : 2 ≤ 2 ^ k := by
    calc 2 = 2 ^ 1 := rfl
    _ ≤ 2 ^ k := Nat.pow_le_pow_right (by omega) hk
  have h1 : (2:Nat) ^ k - 1 ≠ 0 := by omega
  rw [if_neg h1]
  have hub : 2 ^ k - 1 < 2 ^ k := by omega
  have hlb : 2 ^ (k - 1) ≤ 2 ^ k - 1 := by
    have h3 : (2:Nat) ^ (k - 1) < 2 ^ k := Nat.pow_lt_pow_right (by omega) (by omega)
    omega
  have hu := (Nat.log2_lt h1).mpr hub
  have hl := (Nat.le_log2 h1).mpr hlb
  omega

theorem pyAndNot_testBit (a m i : Nat) :
    (pyAndNot a m).testBit i = (a.testBit i && !(m.testBit i)) := by
  unfold pyAndNot
  rw [Nat.testBit_xor, Nat.testBit_and]
  cases a.testBit i <;> cases m.testBit i <;> rfl

theorem testBit_false_of_le {x n : Nat} (h : x < 2 ^ n) {j : Nat} (hj : n ≤ j) :
    x.testBit j = false :=
  Nat.testBit_eq_false_of_lt (lt_of_lt_of_le h (Nat.pow_le_pow_right (by omega) hj))

theorem setData_testBit (a high low d : Nat) (hlh : low ≤ high)
    (hd : d < 2 ^ (high - low + 1)) (j : Nat) :
    (pyAndNot a (CommonBits.bitmask (high - low + 1) <<< low) ||| (d <<< low)).testBit j
      = if low ≤ j ∧ j ≤ high then d.testBit (j - low) else a.testBit j := by
  rw [Nat.testBit_or, pyAndNot_testBit, Nat.testBit_shiftLeft, Nat.testBit_shiftLeft]
  unfold CommonBits.bitmask
  rw [Nat.testBit_two_pow_sub_one]
  by_cases h1 : low ≤ j
  · by_cases h2 : j ≤ high
    · rw [if_pos ⟨h1, h2⟩, decide_eq_true (show j ≥ low by omega),
        decide_eq_true (show j - low < high - low + 1 by omega)]
      simp
    · rw [if_neg (by omega), decide_eq_false (show ¬ j - low < high - low + 1 by omega),
        testBit_false_of_le hd (show high - low + 1 ≤ j - low by omega)]
      simp
  · rw [if_neg (by omega), decide_eq_false (show ¬ j ≥ low by omega)]
    simp

theorem setData_lt (a high low d wn : Nat) (ha : a < 2 ^ wn) (hh : high < wn)
    (hlh : low ≤ high) (hd : d < 2 ^ (high - low + 1)) :
    pyAndNot a (CommonBits.bitmask (high - low + 1) <<< low) ||| (d <<< low) < 2 ^ wn := by
  apply Nat.or_lt_two_pow
  · unfold pyAndNot
    exact Nat.xor_lt_two_pow ha (lt_of_le_of_lt Nat.and_le_left ha)
  · rw [Nat.shiftLeft_eq]
    calc d * 2 ^ low < 2 ^ (high - low + 1) * 2 ^ low :=
          mul_lt_mul_of_pos_right hd (by positivity)
    _ = 2 ^ (high + 1) := by
          rw [← pow_add]
          congr 1
          omega
    _ ≤ 2 ^ wn := Nat.pow_le_pow_right (by omega) (by omega)

theorem shiftLeft_or_eq_add (a b k : Nat) (hb : b < 2 ^ k) :
    (a <<< k) ||| b = a * 2 ^ k + b := by
  have hrhs : a * 2 ^ k + b = 2 ^ k * a + b := by ring
  rw [hrhs]
  apply Nat.eq_of_testBit_eq
  intro j
  rw [Nat.testBit_or, Nat.testBit_shiftLeft, Nat.testBit_mul_pow_two_add a hb j]
  by_cases hj : j < k
  · rw [if_pos hj, decide_eq_false (show ¬ j ≥ k by omega)]
    simp
  · rw [if_neg hj, decide_eq_true (show j ≥ k by omega),
      testBit_false_of_le hb (show k ≤ j by omega)]
    simp

theorem checkSliceRange_eq_zero (c : CommonBits) (high low : Nat) :
    c.checkSliceRange high low = 0 ↔ low ≤ high ∧ high < c.width := by
  unfold CommonBits.checkSliceRange
  constructor
  · intro h
    split_ifs at h <;> omega
  · intro h
    rw [if_neg (by omega), if_neg (by omega)]

theorem setSlice_nat_eq (c : CommonBits) (high low x : Nat) (hlh : low ≤ high)
    (hhw : high < c.width) (hx : x < 2 ^ (high - low + 1)) :
    c.setSlice high low (x : Int)
      = some ({ data := pyAndNot c.data (CommonBits.bitmask (high - low + 1) <<< low)
                  ||| (x <<< low), width := c.width }, []) := by
  unfold CommonBits.setSlice
  rw [if_pos ((checkSliceRange_eq_zero c high low).mpr ⟨hlh, hhw⟩),
    if_neg (show ¬ (x : Int) < -1 by omega), if_neg (show ¬ (x : Int) = -1 by omega)]
  rw [Int.toNat_natCast]
  rw [if_pos ?hfit]
  case hfit =>
    rw [get_bin_len_bitmask (high - low + 1) (by omega)]
    exact (get_bin_len_le_iff x (high - low + 1) (by omega)).mpr hx

theorem getSlice_eq (c : CommonBits) (high low : Nat) (hlh : low ≤ high)
    (hhw : high < c.width) :
    c.getSlice high low
      = some ((c.data >>> low) &&& CommonBits.bitmask (high - low + 1)) := by
  unfold CommonBits.getSlice
  rw [if_pos ((checkSliceRange_eq_zero c high low).mpr ⟨hlh, hhw⟩)]

/-- C4: writing a fitting value `x` into the range `[high:low]` of a
container succeeds without error; reading the same range back returns
`x`, and every bit at an index outside `[high:low]` keeps the value it
had before the write. -/
theorem set_get_roundtrip_frame (c : CommonBits) (high low x : Nat)
    (hinv : c.data < 2 ^ c.width) (hlh : low ≤ high) (hhw : high < c.width)
    (hx : x < 2 ^ (high - low + 1)) :
    ∃ c₁ : CommonBits, c.setSlice high low (x : Int) = some (c₁, [])
      ∧ c₁.getSlice high low = some x
      ∧ ∀ j : Nat, j < low ∨ high < j → c₁.data.testBit j = c.data.testBit j := by
  refine ⟨⟨pyAndNot c.data (CommonBits.bitmask (high - low + 1) <<< low) ||| (x <<< low),
    c.width⟩, setSlice_nat_eq c high low x hlh hhw hx, ?_, ?_⟩
  · rw [getSlice_eq ⟨pyAndNot c.data (CommonBits.bitmask (high - low + 1) <<< low)
      ||| (x <<< low), c.width⟩ high low hlh hhw]
    congr 1
    show ((pyAndNot c.data (CommonBits.bitmask (high - low + 1) <<< low)
      ||| (x <<< low)) >>> low) &&& CommonBits.bitmask (high - low + 1) = x
    apply Nat.eq_of_testBit_eq
    intro i
    rw [Nat.testBit_and, Nat.testBit_shiftRight]
    unfold CommonBits.bitmask
    rw [Nat.testBit_two_pow_sub_one]
    rw [show (2 ^ (high - low + 1) - 1 : Nat) = CommonBits.bitmask (high - low + 1) from rfl]
    rw [setData_testBit c.data high low x hlh hx (low + i)]
    by_cases hi : i < high - low + 1
    · rw [if_pos ⟨by omega, by omega⟩, decide_eq_true hi]
      simp only [Bool.and_true]
      congr 1
      omega
    · rw [if_neg (by omega), decide_eq_false hi,
        testBit_false_of_le hx (show high - low + 1 ≤ i by omega)]
      simp
  · intro j hj
    show (pyAndNot c.data (CommonBits.bitmask (high - low + 1) <<< low)
      ||| (x <<< low)).testBit j = c.data.testBit j
    rw [setData_testBit c.data high low x hlh hx j, if_neg (by omega)]

/-- Witness for C4: write 3 into bits `[2:1]` of a 4-bit container
holding 5 and read it back. -/
theorem set_get_roundtrip_frame_witness :
    ∃ c₁ : CommonBits, CommonBits.setSlice ⟨5, 4⟩ 2 1 (3 : Nat) = some (c₁, [])
      ∧ c₁.getSlice 2 1 = some 3
      ∧ ∀ j : Nat, j < 1 ∨ 2 < j → c₁.data.testBit j = Nat.testBit 5 j :=
  set_get_roundtrip_frame ⟨5, 4⟩ 2 1 3 (by decide) (by decide) (by decide) (by decide)

theorem commonBitsInit_inv (data : Nat) (bits : Int)
    (h : (get_bin_len data : Int) ≤ bits ∨ bits ≤ 0) :
    ((commonBitsInit data bits).1).data < 2 ^ ((commonBitsInit data bits).1).width := by
  unfold commonBitsInit
  by_cases hb : bits > 0
  · rw [if_pos hb]
    show data < 2 ^ bits.toNat
    rcases h with h | h
    · exact (get_bin_len_le_iff data bits.toNat (by omega)).mp (by omega)
    · omega
  · rw [if_neg hb]
    show data < 2 ^ get_bin_len data
    exact lt_two_pow_get_bin_len data

theorem setSlice_inv (c : CommonBits) (high low : Nat) (value : Int)
    (out : CommonBits × List String) (hinv : c.data < 2 ^ c.width)
    (h : c.setSlice high low value = some out) :
    out.1.data < 2 ^ out.1.width := by
  unfold CommonBits.setSlice at h
  by_cases hcs : c.checkSliceRange high low = 0
  · rw [if_pos hcs] at h
    obtain ⟨hlh, hhw⟩ := (checkSliceRange_eq_zero c high low).mp hcs
    by_cases hv : value < -1
    · rw [if_pos hv] at h
      exact absurd h (by simp)
    · rw [if_neg hv] at h
      by_cases hfit : get_bin_len (if value = -1 then CommonBits.bitmask (high - low + 1)
          else value.toNat) ≤ get_bin_len (CommonBits.bitmask (high - low + 1))
      · rw [if_pos hfit] at h
        have hdlt : (if value = -1 then CommonBits.bitmask (high - low + 1)
            else value.toNat) < 2 ^ (high - low + 1) := by
          rw [get_bin_len_bitmask (high - low + 1) (by omega)] at hfit
          exact (get_bin_len_le_iff _ (high - low + 1) (by omega)).mp hfit
        cases h
        exact setData_lt c.data high low _ c.width hinv hhw hlh hdlt
      · rw [if_neg hfit] at h
        cases h
        exact hinv
  · rw [if_neg hcs] at h
    cases h
    exact hinv

theorem setBit_inv (c : CommonBits) (idx : Nat) (value : Int)
    (hinv : c.data < 2 ^ c.width) :
    (c.setBit idx value).1.data < 2 ^ (c.setBit idx value).1.width := by
  unfold CommonBits.setBit
  by_cases hci : c.checkSliceIndex idx = 0
  · rw [if_pos hci]
    have hiw : idx < c.width := by
      unfold CommonBits.checkSliceIndex at hci
      split_ifs at hci <;> omega
    by_cases hfit : get_bin_len_int value ≤ get_bin_len (CommonBits.bitmask 1)
    · rw [if_pos hfit]
      have hv : value.toNat < 2 ^ (idx - idx + 1) := by
        rw [get_bin_len_bitmask 1 (by omega)] at hfit
        unfold get_bin_len_int at hfit
        by_cases h0 : 0 ≤ value
        · rw [if_pos h0] at hfit
          have h1 := (get_bin_len_le_iff value.toNat 1 (by omega)).mp hfit
          have h2 : idx - idx + 1 = 1 := by omega
          rw [h2]
          exact h1
        · rw [if_neg h0] at hfit
          have := get_bin_len_pos (-value).toNat
          omega
      have hrw : CommonBits.bitmask 1 = CommonBits.bitmask (idx - idx + 1) := by
        congr 1
        omega
      show pyAndNot c.data (CommonBits.bitmask 1 <<< idx) ||| (value.toNat <<< idx)
        < 2 ^ c.width
      rw [hrw]
      exact setData_lt c.data idx idx value.toNat c.width hinv hiw le_rfl hv
    · rw [if_neg hfit]
      exact hinv
  · rw [if_neg hci]
    exact hinv

theorem concatBits_eq (a b : CommonBits) (ha : a.data < 2 ^ a.width)
    (hb : b.data < 2 ^ b.width) (hwa : 0 < a.width) (hwb : 0 < b.width) :
    concatBits a b = some ⟨a.data * 2 ^ b.width + b.data, a.width + b.width⟩ := by
  unfold concatBits
  have hret : (commonBitsInit 0 ((a.width : Int) + (b.width : Int))).1
      = (⟨0, a.width + b.width⟩ : CommonBits) := by
    unfold commonBitsInit
    rw [if_pos (by omega)]
    show (⟨0, ((a.width : Int) + (b.width : Int)).toNat⟩ : CommonBits) = _
    have htn : ((a.width : Int) + (b.width : Int)).toNat = a.width + b.width := by omega
    rw [htn]
  rw [hret]
  have hk1 : a.width + b.width - 1 - b.width + 1 = a.width := by omega
  have h1 : CommonBits.setSlice ⟨0, a.width + b.width⟩ (a.width + b.width - 1) b.width
      ((a.data : Nat) : Int) = some (⟨a.data <<< b.width, a.width + b.width⟩, []) := by
    rw [setSlice_nat_eq ⟨0, a.width + b.width⟩ (a.width + b.width - 1) b.width a.data
      (by omega) (show a.width + b.width - 1 < a.width + b.width by omega)
      (by rw [hk1]; exact ha)]
    have hz : pyAndNot 0 (CommonBits.bitmask (a.width + b.width - 1 - b.width + 1)
        <<< b.width) ||| (a.data <<< b.width) = a.data <<< b.width := by
      unfold pyAndNot
      rw [Nat.zero_and, Nat.zero_xor, Nat.zero_or]
    rw [hz]
  rw [h1]
  show (match CommonBits.setSlice ⟨a.data <<< b.width, a.width + b.width⟩ (b.width - 1) 0
      ((b.data : Nat) : Int) with
    | none => none
    | some (r2, _) => some r2) = some ⟨a.data * 2 ^ b.width + b.data, a.width + b.width⟩
  have hk2 : b.width - 1 - 0 + 1 = b.width := by omega
  have h2 : CommonBits.setSlice ⟨a.data <<< b.width, a.width + b.width⟩ (b.width - 1) 0
      ((b.data : Nat) : Int)
      = some (⟨a.data * 2 ^ b.width + b.data, a.width + b.width⟩, []) := by
    rw [setSlice_nat_eq ⟨a.data <<< b.width, a.width + b.width⟩ (b.width - 1) 0 b.data
      (by omega) (show b.width - 1 < a.width + b.width by omega)
      (by rw [hk2]; exact hb)]
    have hAndNot : pyAndNot (a.data <<< b.width)
        (CommonBits.bitmask (b.width - 1 - 0 + 1) <<< 0) = a.data <<< b.width := by
      rw [hk2, Nat.shiftLeft_zero]
      unfold pyAndNot
      have hand : (a.data <<< b.width) &&& CommonBits.bitmask b.width = 0 := by
        apply Nat.eq_of_testBit_eq
        intro i
        rw [Nat.testBit_and, Nat.testBit_shiftLeft, Nat.zero_testBit]
        unfold CommonBits.bitmask
        rw [Nat.testBit_two_pow_sub_one]
        by_cases hi : i < b.width
        · rw [decide_eq_false (show ¬ i ≥ b.width by omega)]
          simp
        · rw [decide_eq_false hi]
          simp
      rw [hand, Nat.xor_zero]
    rw [hAndNot, Nat.shiftLeft_zero, shiftLeft_or_eq_add a.data b.data b.width hb]
  rw [h2]

/-- C8: concatenating two containers (each holding data within its
positive width, per the data model) yields a container of the combined
width whose data is the data of the first operand shifted above the
width of the second plus the data of the second, i.e. the first operand
forms the most significant segment. -/
theorem concat_spec (a b : CommonBits) (ha : a.data < 2 ^ a.width)
    (hb : b.data < 2 ^ b.width) (hwa : 0 < a.width) (hwb : 0 < b.width) :
    concatBits a b = some ⟨a.data * 2 ^ b.width + b.data, a.width + b.width⟩ :=
  concatBits_eq a b ha hb hwa hwb

/-- Witness for C8: concatenating 16-bit `0xDEAD` and 16-bit `0xBEEF`
gives the 32-bit container `0xDEADBEEF`. -/
theorem concat_spec_witness :
    concatBits ⟨0xDEAD, 16⟩ ⟨0xBEEF, 16⟩ = some ⟨0xDEADBEEF, 32⟩ := by
  rw [concat_spec ⟨0xDEAD, 16⟩ ⟨0xBEEF, 16⟩ (by decide) (by decide) (by decide) (by decide)]
  decide

/-- C5 counterexample: constructing a container from value 256 with
explicit width 8 does not fail; the constructor prints an error message
and still returns a normally constructed object holding `data = 256`
with width 8. -/
theorem construct_overwide_counterexample :
    commonBitsInit 256 8
      = (⟨256, 8⟩,
        ["CommonBits: Error: input data does not fit in passed number of bits"]) := by
  decide

/-- C5 (amended): for every nonnegative value whose minimum bit length
exceeds an explicitly supplied positive width, construction reports the
misfit by printing an error message and still returns the object with
the unmodified value and the requested width; no exception is raised and
no truncation happens. -/
theorem construct_overwide_prints (d : Nat) (bits : Int) (h0 : 0 < bits)
    (h : bits < (get_bin_len d : Int)) :
    commonBitsInit d bits
      = (⟨d, bits.toNat⟩,
        ["CommonBits: Error: input data does not fit in passed number of bits"]) := by
  unfold commonBitsInit
  rw [if_pos h0, if_pos (by omega)]

/-- Witness for C5 (amended) at value 300, width 4. -/
theorem construct_overwide_prints_witness :
    commonBitsInit 300 4
      = (⟨300, 4⟩,
        ["CommonBits: Error: input data does not fit in passed number of bits"]) := by
  rw [construct_overwide_prints 300 4 (by decide) (by decide)]
  rfl

/-- C3 counterexample: after the construction `CommonBits(256, 8)`
completes, the stored data 256 is not below `2^8`, so the claimed
invariant does not hold after every completed construction. -/
theorem container_invariant_counterexample :
    ¬ ((commonBitsInit 256 8).1.data < 2 ^ (commonBitsInit 256 8).1.width) := by
  decide

/-- C3 (amended): the invariant `data < 2^width` holds after every
construction whose value fits the explicit width (or that uses the
default minimum width), and it is preserved by every completed ranged
write, every indexed write, and established by concatenation of two
containers satisfying it. -/
theorem container_invariant :
    (∀ (d : Nat) (bits : Int), ((get_bin_len d : Int) ≤ bits ∨ bits ≤ 0) →
      ((commonBitsInit d bits).1).data < 2 ^ ((commonBitsInit d bits).1).width)
    ∧ (∀ (c : CommonBits) (high low : Nat) (v : Int) (out : CommonBits × List String),
        c.data < 2 ^ c.width → c.setSlice high low v = some out →
        out.1.data < 2 ^ out.1.width)
    ∧ (∀ (c : CommonBits) (idx : Nat) (v : Int), c.data < 2 ^ c.width →
        (c.setBit idx v).1.data < 2 ^ (c.setBit idx v).1.width)
    ∧ (∀ (a b : CommonBits) (r : CommonBits), a.data < 2 ^ a.width →
        b.data < 2 ^ b.width → 0 < a.width → 0 < b.width →
        concatBits a b = some r → r.data < 2 ^ r.width) := by
  refine ⟨commonBitsInit_inv, setSlice_inv, setBit_inv, ?_⟩
  intro a b r ha hb hwa hwb hcat
  rw [concatBits_eq a b ha hb hwa hwb] at hcat
  cases hcat
  show a.data * 2 ^ b.width + b.data < 2 ^ (a.width + b.width)
  have h1 : a.data ≤ 2 ^ a.width - 1 := by omega
  have h2 : a.data * 2 ^ b.width ≤ (2 ^ a.width - 1) * 2 ^ b.width :=
    Nat.mul_le_mul_right _ h1
  have h3 : (2 ^ a.width - 1) * 2 ^ b.width = 2 ^ (a.width + b.width) - 2 ^ b.width := by
    rw [Nat.sub_mul, one_mul, ← pow_add]
  calc a.data * 2 ^ b.width + b.data
      ≤ (2 ^ a.width - 1) * 2 ^ b.width + b.data := Nat.add_le_add_right h2 _
    _ = 2 ^ (a.width + b.width) - 2 ^ b.width + b.data := by rw [h3]
    _ < 2 ^ (a.width + b.width) := by
        have h4 : (0:Nat) < 2 ^ b.width := by positivity
        have h5 : 2 ^ b.width ≤ 2 ^ (a.width + b.width) :=
          Nat.pow_le_pow_right (by omega) (by omega)
        omega

/-- Witness for C3 (amended): a concrete fitting construction, a
concrete completed ranged write, a concrete indexed write and a concrete
concatenation, each landing inside the invariant. -/
theorem container_invariant_witness :
    ((commonBitsInit 5 4).1).data < 2 ^ ((commonBitsInit 5 4).1).width
    ∧ (7:Nat) < 2 ^ (4:Nat)
    ∧ ((CommonBits.setBit ⟨5, 4⟩ 1 1).1).data < 2 ^ ((CommonBits.setBit ⟨5, 4⟩ 1 1).1).width :=
  ⟨container_invariant.1 5 4 (Or.inl (by decide)),
   container_invariant.2.1 ⟨5, 4⟩ 3 1 (3 : Nat) (⟨7, 4⟩, []) (by decide) (by decide),
   container_invariant.2.2.1 ⟨5, 4⟩ 1 1 (by decide)⟩

theorem getBit_init (d bit : Nat) :
    ((commonBitsInit d 0).1).getBit bit
      = if bit < get_bin_len d then some (d / 2 ^ bit % 2) else none := by
  show (if (if get_bin_len d ≤ bit then (1:Nat) else 0) = 0
      then some ((d >>> bit) &&& CommonBits.bitmask 1) else none)
    = if bit < get_bin_len d then some (d / 2 ^ bit % 2) else none
  by_cases hb : bit < get_bin_len d
  · rw [if_neg (show ¬ get_bin_len d ≤ bit by omega), if_pos rfl, if_pos hb]
    show some ((d >>> bit) &&& 1) = some (d / 2 ^ bit % 2)
    rw [Nat.and_one_is_mod, Nat.shiftRight_eq_div_pow]
  · rw [if_pos (show get_bin_len d ≤ bit by omega), if_neg (show ¬ (1:Nat) = 0 by omega),
      if_neg hb]

/-- C9 counterexample: the container `⟨1, 2⟩` (data 1, width 2, invariant
satisfied) has bit 1 equal to 0, so the claim requires
`low_bit_positions` to return `[1]`; the code returns `[]`, because the
scan rebuilds a fresh container of minimal width 1 from the data and the
read of bit 1 in that narrower container fails and is skipped. -/
theorem lo_positions_counterexample :
    ¬ (CommonBits.lo ⟨1, 2⟩
        = (List.range 2).filter (fun i => !Nat.testBit 1 i)) := by
  decide

/-- C9 (amended): `hi` returns exactly the indices `i` in `[0, width)`
whose bit of `data` is 1, in increasing order, as claimed.  `lo` returns,
in increasing order, only those zero-bit indices that are below the
minimum binary length of `data`: indices from `get_bin_len data` up to
`width - 1` are silently dropped, because the scan reads them from a
fresh minimal-width container where they are out of range. -/
theorem hi_lo_positions (c : CommonBits) (hinv : c.data < 2 ^ c.width) :
    c.hi = (List.range c.width).filter (fun i => c.data.testBit i)
    ∧ c.lo = (List.range c.width).filter
        (fun i => decide (i < get_bin_len c.data) && !c.data.testBit i) := by
  constructor
  · unfold CommonBits.hi
    apply List.filter_congr
    intro bit hbit
    rw [getBit_init c.data bit]
    by_cases hb : bit < get_bin_len c.data
    · rw [if_pos hb, Nat.testBit_to_div_mod, decide_eq_decide]
      exact Option.some_inj
    · rw [if_neg hb,
        testBit_false_of_le (lt_two_pow_get_bin_len c.data) (show get_bin_len c.data ≤ bit by omega)]
      rfl
  · unfold CommonBits.lo
    apply List.filter_congr
    intro bit hbit
    rw [getBit_init c.data bit]
    by_cases hb : bit < get_bin_len c.data
    · rw [if_pos hb, decide_eq_true hb, Bool.true_and, Nat.testBit_to_div_mod]
      rcases Nat.mod_two_eq_zero_or_one (c.data / 2 ^ bit) with h | h
      · rw [h]
        rfl
      · rw [h]
        rfl
    · rw [if_neg hb, decide_eq_false hb, Bool.false_and]
      rfl

/-- Witness for C9 (amended) on the container `⟨5, 4⟩`. -/
theorem hi_lo_positions_witness :
    CommonBits.hi ⟨5, 4⟩ = (List.range 4).filter (fun i => Nat.testBit 5 i)
    ∧ CommonBits.lo ⟨5, 4⟩ = (List.range 4).filter
        (fun i => decide (i < get_bin_len 5) && !Nat.testBit 5 i) :=
  hi_lo_positions ⟨5, 4⟩ (by decide)
